import Mathlib

/-!
Verification of the bookstack aggregation service (`src/app.py`) against its
natural-language specification.

Strings are modelled as `List Char`.  Each definition is a shallow embedding
of the corresponding Python function; doc comments name the source function
and line range.  External library collaborators (the XML parser, the HTML
element tree, `html.unescape`, `urllib.parse.urljoin`) are modelled at the
interface boundary the code uses, as explained on each definition.
-/

abbrev Str := List Char

/-- ASCII whitespace, matching Python's `\s` character class on the
characters these feeds contain: space, tab, newline, carriage return,
vertical tab, form feed. -/
def isWs (c : Char) : Bool :=
  c = ' ' || c = '\t' || c = '\n' || c = '\r' || c = '\x0b' || c = '\x0c'

/-- One pass of `re.sub(r'\s+', ' ', s)` (app.py line 40): every maximal
whitespace run becomes a single space.  The boolean records whether the
previous character belonged to a whitespace run. -/
def squeezeAux : Bool → Str → Str
  | _, [] => []
  | prev, c :: cs =>
    if isWs c then
      if prev then squeezeAux true cs else ' ' :: squeezeAux true cs
    else c :: squeezeAux false cs

/-- Python `str.strip()` on the left: drop leading whitespace. -/
def trimStart (s : Str) : Str := s.dropWhile isWs

/-- Python `str.strip()` on the right: drop trailing whitespace. -/
def trimEnd (s : Str) : Str := (s.reverse.dropWhile isWs).reverse

/-- `re.sub(r'\s+', ' ', s).strip()` (app.py line 40). -/
def collapseWs (s : Str) : Str := trimStart (trimEnd (squeezeAux false s))

/-- Recognise an HTML character reference right after a `&`.  Model of the
lookup performed by Python's `html.unescape`, restricted to the
semicolon-terminated core named entities `amp`, `lt`, `gt`, `quot`; the
theorems below depend on this table only through the `amp` entry. -/
def entHead : Str → Option (Char × Str)
  | 'a' :: 'm' :: 'p' :: ';' :: rest => some ('&', rest)
  | 'l' :: 't' :: ';' :: rest => some ('<', rest)
  | 'g' :: 't' :: ';' :: rest => some ('>', rest)
  | 'q' :: 'u' :: 'o' :: 't' :: ';' :: rest => some ('"', rest)
  | _ => none

/-- Fuelled single pass of `html.unescape` (app.py line 38).  Each step
consumes at least one input character, so fuel `s.length` always suffices
and the fuel-exhaustion branch is never taken by `unescape`. -/
def unescapeF : Nat → Str → Str
  | 0, s => s
  | _ + 1, [] => []
  | fuel + 1, c :: cs =>
    if c = '&' then
      match entHead cs with
      | some (d, rest) => d :: unescapeF fuel rest
      | none => '&' :: unescapeF fuel cs
    else c :: unescapeF fuel cs

/-- Model of Python `html.unescape` (app.py line 38). -/
def unescape (s : Str) : Str := unescapeF s.length s

/-- `re.sub(r'<[^>]+>', '', s)` (app.py line 39) as a one-pass scanner.
In state `some buf` we have read a `<` and then the reversed characters
`buf`, none of which is `>`.  Reaching `>` with a nonempty buffer completes
a tag, which is deleted; reaching `>` with an empty buffer means the regex
cannot match at that `<` (it needs at least one character between the
brackets), so `<>` is kept; end of input flushes the buffer verbatim. -/
def stAux : Option Str → Str → Str
  | none, [] => []
  | some buf, [] => '<' :: buf.reverse
  | none, c :: cs => if c = '<' then stAux (some []) cs else c :: stAux none cs
  | some buf, c :: cs =>
    if c = '>' then
      match buf with
      | [] => '<' :: '>' :: stAux none cs
      | _ :: _ => stAux none cs
    else stAux (some (c :: buf)) cs

/-- Tag markup removal, `re.sub(r'<[^>]+>', '', s)` (app.py line 39). -/
def stripTags (s : Str) : Str := stAux none s

/-- `clean_html` (app.py lines 35-41): unescape entities, strip `<...>`
spans, collapse whitespace runs to single spaces and trim.  The `if not
raw_html: return ""` guard is the identity on the empty string here. -/
def cleanHtml (s : Str) : Str := collapseWs (stripTags (unescape s))

/-- Helper for stating tag-freeness: scan `l` for the first `>`, where `n`
counts the characters already passed; `some rest` means a `>` was found
after at least one other character since the scan began. -/
def dropTag : Str → Nat → Option Str
  | [], _ => none
  | c :: cs, n => if c = '>' then (if n = 0 then none else some cs) else dropTag cs (n + 1)

/-- `hasTag s = true` iff `s` contains a complete tag span: a `<`, then one
or more non-`>` characters, then `>` — i.e. iff the regex `<[^>]+>` matches
somewhere in `s`. -/
def hasTag : Str → Bool
  | [] => false
  | c :: cs =>
    if c = '<' then
      match dropTag cs 0 with
      | some _ => true
      | none => hasTag cs
    else hasTag cs

/-! ### Lemmas about `unescape` -/

theorem unescapeF_no_amp : ∀ (f : Nat) (s : Str), '&' ∉ s → unescapeF f s = s := by
  intro f
  induction f with
  | zero => intro s _; rfl
  | succ f ih =>
    intro s h
    match s with
    | [] => rfl
    | c :: cs =>
      have hc : ¬ c = '&' := fun hc => h (hc ▸ List.mem_cons_self c cs)
      have hcs : '&' ∉ cs := fun hm => h (List.mem_cons_of_mem c hm)
      simp only [unescapeF, if_neg hc]
      exact congrArg (c :: ·) (ih cs hcs)

theorem unescape_no_amp (s : Str) (h : '&' ∉ s) : unescape s = s :=
  unescapeF_no_amp s.length s h

/-! ### Lemmas about `stripTags` -/

theorem stAux_mem : ∀ (s : Str) (x : Char),
    (x ∈ stAux none s → x ∈ s) ∧
    (∀ buf, x ∈ stAux (some buf) s → x ∈ buf ∨ x = '<' ∨ x ∈ s) := by
  intro s
  induction s with
  | nil =>
    intro x
    refine ⟨fun h => by simp [stAux] at h, fun buf h => ?_⟩
    simp only [stAux, List.mem_cons, List.mem_reverse] at h
    rcases h with h | h
    · exact Or.inr (Or.inl h)
    · exact Or.inl h
  | cons c cs ih =>
    intro x
    constructor
    · intro h
      by_cases hc : c = '<'
      · rw [show stAux none (c :: cs) = stAux (some []) cs by
          simp [stAux, hc]] at h
        rcases ((ih x).2 []) h with h | h | h
        · simp at h
        · rw [h, hc]; exact List.mem_cons_self _ _
        · exact List.mem_cons_of_mem _ h
      · rw [show stAux none (c :: cs) = c :: stAux none cs by
          simp [stAux, hc]] at h
        rcases List.mem_cons.mp h with h | h
        · exact h ▸ List.mem_cons_self _ _
        · exact List.mem_cons_of_mem _ ((ih x).1 h)
    · intro buf h
      by_cases hgt : c = '>'
      · match buf with
        | [] =>
          rw [show stAux (some []) (c :: cs) = '<' :: '>' :: stAux none cs by
            simp [stAux, hgt]] at h
          rcases List.mem_cons.mp h with h | h
          · exact Or.inr (Or.inl h)
          · rcases List.mem_cons.mp h with h | h
            · exact Or.inr (Or.inr (by rw [h, hgt]; exact List.mem_cons_self _ _))
            · exact Or.inr (Or.inr (List.mem_cons_of_mem _ ((ih x).1 h)))
        | b :: bs =>
          rw [show stAux (some (b :: bs)) (c :: cs) = stAux none cs by
            simp [stAux, hgt]] at h
          exact Or.inr (Or.inr (List.mem_cons_of_mem _ ((ih x).1 h)))
      · rw [show stAux (some buf) (c :: cs) = stAux (some (c :: buf)) cs by
          simp [stAux, hgt]] at h
        rcases ((ih x).2 (c :: buf)) h with h | h | h
        · rcases List.mem_cons.mp h with h | h
          · exact Or.inr (Or.inr (h ▸ List.mem_cons_self _ _))
          · exact Or.inl h
        · exact Or.inr (Or.inl h)
        · exact Or.inr (Or.inr (List.mem_cons_of_mem _ h))

theorem stripTags_mem {s : Str} {x : Char} (h : x ∈ stripTags s) : x ∈ s :=
  (stAux_mem s x).1 h

theorem dropTag_none_of_no_gt : ∀ (l : Str) (n : Nat), '>' ∉ l → dropTag l n = none := by
  intro l
  induction l with
  | nil => intro n _; rfl
  | cons c cs ih =>
    intro n h
    have hc : ¬ c = '>' := fun hc => h (hc ▸ List.mem_cons_self c cs)
    simp only [dropTag, if_neg hc]
    exact ih (n + 1) (fun hm => h (List.mem_cons_of_mem c hm))

theorem hasTag_of_no_gt : ∀ (s : Str), '>' ∉ s → hasTag s = false := by
  intro s
  induction s with
  | nil => intro _; rfl
  | cons c cs ih =>
    intro h
    have hcs : '>' ∉ cs := fun hm => h (List.mem_cons_of_mem c hm)
    by_cases hc : c = '<'
    · simp only [hasTag, if_pos hc, dropTag_none_of_no_gt cs 0 hcs]
      exact ih hcs
    · simp only [hasTag, if_neg hc]
      exact ih hcs

theorem hasTag_stAux : ∀ (s : Str),
    (∀ buf, '>' ∉ buf → hasTag (stAux (some buf) s) = false) ∧
    hasTag (stAux none s) = false := by
  intro s
  induction s with
  | nil =>
    refine ⟨fun buf hbuf => ?_, rfl⟩
    have hrev : '>' ∉ buf.reverse := fun hm => hbuf (List.mem_reverse.mp hm)
    simp only [stAux, hasTag, if_pos rfl, dropTag_none_of_no_gt _ 0 hrev]
    exact hasTag_of_no_gt _ hrev
  | cons c cs ih =>
    constructor
    · intro buf hbuf
      simp only [stAux]
      by_cases hgt : c = '>'
      · rw [if_pos hgt]
        match buf with
        | [] =>
          show hasTag ('<' :: '>' :: stAux none cs) = false
          simp only [hasTag, if_pos rfl, dropTag, if_pos rfl,
            reduceIte, reduceCtorEq]
          exact ih.2
        | b :: bs => exact ih.2
      · rw [if_neg hgt]
        refine ih.1 (c :: buf) (fun hm => ?_)
        rcases List.mem_cons.mp hm with hm | hm
        · exact hgt hm.symm
        · exact hbuf hm
    · simp only [stAux]
      by_cases hc : c = '<'
      · rw [if_pos hc]
        exact ih.1 [] (by simp)
      · rw [if_neg hc]
        simp only [hasTag, if_neg hc]
        exact ih.2

theorem hasTag_stripTags (s : Str) : hasTag (stripTags s) = false :=
  (hasTag_stAux s).2

theorem dropTag_none_inv : ∀ (l : Str), dropTag l 0 = none →
    '>' ∉ l ∨ ∃ l', l = '>' :: l' := by
  have gen : ∀ (l : Str) (n : Nat), dropTag l n = none →
      '>' ∉ l ∨ (n = 0 ∧ ∃ l', l = '>' :: l') := by
    intro l
    induction l with
    | nil => intro n _; exact Or.inl (by simp)
    | cons c cs ih =>
      intro n h
      by_cases hc : c = '>'
      · simp only [dropTag, if_pos hc] at h
        by_cases hn : n = 0
        · exact Or.inr ⟨hn, cs, by rw [hc]⟩
        · rw [if_neg hn] at h; exact absurd h (by simp)
      · simp only [dropTag, if_neg hc] at h
        rcases ih (n + 1) h with h' | h'
        · refine Or.inl (fun hm => ?_)
          rcases List.mem_cons.mp hm with hm | hm
          · exact hc hm.symm
          · exact h' hm
        · exact absurd h'.1 (by simp)
  intro l h
  rcases gen l 0 h with h' | h'
  · exact Or.inl h'
  · exact Or.inr h'.2

theorem hasTag_tail {c : Char} {cs : Str} (h : hasTag (c :: cs) = false) :
    hasTag cs = false := by
  by_cases hc : c = '<'
  · simp only [hasTag, if_pos hc] at h
    match hdt : dropTag cs 0 with
    | some r => rw [hdt] at h; exact absurd h (by simp)
    | none => rw [hdt] at h; exact h
  · simpa only [hasTag, if_neg hc] using h

theorem hasTag_cons_lt {cs : Str} (h : hasTag ('<' :: cs) = false) :
    dropTag cs 0 = none := by
  simp only [hasTag, if_pos rfl] at h
  match hdt : dropTag cs 0 with
  | some r => rw [hdt] at h; exact absurd h (by simp)
  | none => rfl

theorem stAux_some_no_gt : ∀ (s : Str) (buf : Str), '>' ∉ s →
    stAux (some buf) s = '<' :: buf.reverse ++ s := by
  intro s
  induction s with
  | nil => intro buf _; simp [stAux]
  | cons c cs ih =>
    intro buf h
    have hc : ¬ c = '>' := fun hc => h (hc ▸ List.mem_cons_self c cs)
    have hcs : '>' ∉ cs := fun hm => h (List.mem_cons_of_mem c hm)
    simp only [stAux, if_neg hc, ih (c :: buf) hcs, List.reverse_cons]
    simp

theorem stAux_none_fix : ∀ (n : Nat) (s : Str), s.length ≤ n →
    hasTag s = false → stAux none s = s := by
  intro n
  induction n with
  | zero =>
    intro s hlen _
    match s with
    | [] => rfl
  | succ n ih =>
    intro s hlen htag
    match s with
    | [] => rfl
    | c :: cs =>
      by_cases hc : c = '<'
      · subst hc
        have hdt : dropTag cs 0 = none := hasTag_cons_lt htag
        rw [show stAux none ('<' :: cs) = stAux (some []) cs by simp [stAux]]
        rcases dropTag_none_inv cs hdt with hng | ⟨cs', hcs'⟩
        · rw [stAux_some_no_gt cs [] hng]; rfl
        · subst hcs'
          rw [show stAux (some []) ('>' :: cs') = '<' :: '>' :: stAux none cs' by
            simp [stAux]]
          have htag' : hasTag cs' = false := hasTag_tail (hasTag_tail htag)
          have hlen' : cs'.length ≤ n := by
            simp only [List.length_cons] at hlen; omega
          rw [ih cs' hlen' htag']
      · simp only [hasTag, if_neg hc] at htag
        rw [show stAux none (c :: cs) = c :: stAux none cs by simp [stAux, hc]]
        have hlen' : cs.length ≤ n := by
          simp only [List.length_cons] at hlen; omega
        rw [ih cs hlen' htag]

theorem stripTags_fix {s : Str} (h : hasTag s = false) : stripTags s = s :=
  stAux_none_fix s.length s (Nat.le_refl _) h

/-! ### Lemmas about whitespace collapsing -/

theorem squeezeAux_mem : ∀ (s : Str) (b : Bool) (x : Char),
    x ∈ squeezeAux b s → x = ' ' ∨ x ∈ s := by
  intro s
  induction s with
  | nil => intro b x h; simp [squeezeAux] at h
  | cons c cs ih =>
    intro b x h
    by_cases hw : isWs c
    · by_cases hb : b
      · rw [show squeezeAux b (c :: cs) = squeezeAux true cs by
          simp [squeezeAux, hw, hb]] at h
        rcases ih true x h with h | h
        · exact Or.inl h
        · exact Or.inr (List.mem_cons_of_mem _ h)
      · rw [show squeezeAux b (c :: cs) = ' ' :: squeezeAux true cs by
          simp [squeezeAux, hw, hb]] at h
        rcases List.mem_cons.mp h with h | h
        · exact Or.inl h
        · rcases ih true x h with h | h
          · exact Or.inl h
          · exact Or.inr (List.mem_cons_of_mem _ h)
    · rw [show squeezeAux b (c :: cs) = c :: squeezeAux false cs by
        simp [squeezeAux, hw]] at h
      rcases List.mem_cons.mp h with h | h
      · exact Or.inr (h ▸ List.mem_cons_self _ _)
      · rcases ih false x h with h | h
        · exact Or.inl h
        · exact Or.inr (List.mem_cons_of_mem _ h)

theorem hasTag_squeezeAux : ∀ (s : Str) (b : Bool), hasTag s = false →
    hasTag (squeezeAux b s) = false := by
  intro s
  induction s with
  | nil => intro b _; cases b <;> rfl
  | cons c cs ih =>
    intro b htag
    have htcs : hasTag cs = false := hasTag_tail htag
    by_cases hw : isWs c
    · by_cases hb : b
      · rw [show squeezeAux b (c :: cs) = squeezeAux true cs by
          simp [squeezeAux, hw, hb]]
        exact ih true htcs
      · rw [show squeezeAux b (c :: cs) = ' ' :: squeezeAux true cs by
          simp [squeezeAux, hw, hb]]
        have : ¬ (' ' : Char) = '<' := by decide
        simp only [hasTag, if_neg this]
        exact ih true htcs
    · rw [show squeezeAux b (c :: cs) = c :: squeezeAux false cs by
        simp [squeezeAux, hw]]
      by_cases hc : c = '<'
      · subst hc
        have hdt : dropTag cs 0 = none := hasTag_cons_lt htag
        have hdt2 : dropTag (squeezeAux false cs) 0 = none := by
          rcases dropTag_none_inv cs hdt with hng | ⟨cs', hcs'⟩
          · refine dropTag_none_of_no_gt _ 0 (fun hm => ?_)
            rcases squeezeAux_mem cs false '>' hm with h | h
            · exact absurd h (by decide)
            · exact hng h
          · subst hcs'
            rw [show squeezeAux false ('>' :: cs') = '>' :: squeezeAux false cs' by
              simp [squeezeAux, isWs]]
            rfl
        simp only [hasTag, if_pos rfl, hdt2]
        exact ih false htcs
      · simp only [hasTag, if_neg hc]
        exact ih false htcs

theorem hasTag_dropWhile (p : Char → Bool) : ∀ (s : Str), hasTag s = false →
    hasTag (s.dropWhile p) = false := by
  intro s
  induction s with
  | nil => intro h; exact h
  | cons c cs ih =>
    intro h
    by_cases hp : p c
    · rw [List.dropWhile_cons_of_pos hp]
      exact ih (hasTag_tail h)
    · rwa [List.dropWhile_cons_of_neg hp]

theorem dropTag_append_some : ∀ (l : Str) (n : Nat) (r t : Str),
    dropTag l n = some r → dropTag (l ++ t) n = some (r ++ t) := by
  intro l
  induction l with
  | nil => intro n r t h; simp [dropTag] at h
  | cons c cs ih =>
    intro n r t h
    by_cases hc : c = '>'
    · simp only [dropTag, if_pos hc] at h
      by_cases hn : n = 0
      · rw [if_pos hn] at h; exact absurd h (by simp)
      · rw [if_neg hn] at h
        have hr : cs = r := by injection h
        subst hr
        simp only [List.cons_append, dropTag, if_pos hc, if_neg hn]
        rfl
    · simp only [dropTag, if_neg hc] at h
      simp only [List.cons_append, dropTag, if_neg hc]
      exact ih (n + 1) r t h

theorem hasTag_cons_ne {c : Char} (cs : Str) (hc : ¬ c = '<') :
    hasTag (c :: cs) = hasTag cs := by
  simp [hasTag, hc]

theorem hasTag_cons_lt_eq (cs : Str) :
    hasTag ('<' :: cs) =
      (match dropTag cs 0 with | some _ => true | none => hasTag cs) := by
  simp [hasTag]

theorem hasTag_append_left : ∀ (l t : Str), hasTag l = true → hasTag (l ++ t) = true := by
  intro l
  induction l with
  | nil => intro t h; exact absurd h (by simp [hasTag])
  | cons c cs ih =>
    intro t h
    rw [List.cons_append]
    by_cases hc : c = '<'
    · subst hc
      rw [hasTag_cons_lt_eq] at h
      rw [hasTag_cons_lt_eq]
      match hdt : dropTag cs 0 with
      | some r => rw [dropTag_append_some cs 0 r t hdt]
      | none =>
        rw [hdt] at h
        match hdt2 : dropTag (cs ++ t) 0 with
        | some r => rfl
        | none => exact ih t h
    · rw [hasTag_cons_ne cs hc] at h
      rw [hasTag_cons_ne _ hc]
      exact ih t h

theorem hasTag_of_prefix {l t : Str} (h : hasTag (l ++ t) = false) :
    hasTag l = false := by
  by_contra hne
  rw [hasTag_append_left l t (by simpa using hne)] at h
  exact absurd h (by simp)

theorem trimEnd_prefix (s : Str) : ∃ t, s = trimEnd s ++ t := by
  refine ⟨(s.reverse.takeWhile isWs).reverse, ?_⟩
  have h := List.takeWhile_append_dropWhile isWs s.reverse
  calc s = s.reverse.reverse := (List.reverse_reverse s).symm
    _ = (s.reverse.takeWhile isWs ++ s.reverse.dropWhile isWs).reverse := by rw [h]
    _ = trimEnd s ++ (s.reverse.takeWhile isWs).reverse := by
        rw [List.reverse_append]; rfl

theorem hasTag_collapseWs {s : Str} (h : hasTag s = false) :
    hasTag (collapseWs s) = false := by
  have h1 : hasTag (squeezeAux false s) = false := hasTag_squeezeAux s false h
  have h2 : hasTag (trimEnd (squeezeAux false s)) = false := by
    obtain ⟨t, ht⟩ := trimEnd_prefix (squeezeAux false s)
    exact hasTag_of_prefix (ht ▸ h1)
  exact hasTag_dropWhile isWs _ h2

/-- `true` iff the string does not start with a whitespace character. -/
def headNotWs : Str → Bool
  | [] => true
  | d :: _ => !(isWs d)

/-- Invariant of whitespace-collapsed strings: every whitespace character is
a plain space, and no two whitespace characters are adjacent. -/
def okWs : Str → Bool
  | [] => true
  | c :: cs => (if isWs c then (c == ' ') && headNotWs cs else true) && okWs cs

theorem okWs_squeezeAux : ∀ (s : Str),
    okWs (squeezeAux true s) = true ∧ okWs (squeezeAux false s) = true ∧
    headNotWs (squeezeAux true s) = true := by
  intro s
  induction s with
  | nil => exact ⟨rfl, rfl, rfl⟩
  | cons c cs ih =>
    by_cases hw : isWs c
    · refine ⟨?_, ?_, ?_⟩
      · rw [show squeezeAux true (c :: cs) = squeezeAux true cs by
          simp [squeezeAux, hw]]
        exact ih.1
      · rw [show squeezeAux false (c :: cs) = ' ' :: squeezeAux true cs by
          simp [squeezeAux, hw]]
        simp only [okWs, if_pos (show isWs ' ' = true by decide)]
        rw [ih.1, ih.2.2]
        rfl
      · rw [show squeezeAux true (c :: cs) = squeezeAux true cs by
          simp [squeezeAux, hw]]
        exact ih.2.2
    · have heq : ∀ b, squeezeAux b (c :: cs) = c :: squeezeAux false cs := by
        intro b; simp [squeezeAux, hw]
      refine ⟨?_, ?_, ?_⟩
      · rw [heq true]
        simp only [okWs, if_neg hw]
        rw [ih.2.1]
        rfl
      · rw [heq false]
        simp only [okWs, if_neg hw]
        rw [ih.2.1]
        rfl
      · rw [heq true]
        simp only [headNotWs]
        simpa using hw

theorem sq_fix : ∀ (s : Str), okWs s = true →
    (squeezeAux false s = s ∧ (headNotWs s = true → squeezeAux true s = s)) := by
  intro s
  induction s with
  | nil => exact fun _ => ⟨rfl, fun _ => rfl⟩
  | cons c cs ih =>
    intro hok
    simp only [okWs] at hok
    rw [Bool.and_eq_true] at hok
    obtain ⟨hcond, hcs⟩ := hok
    by_cases hw : isWs c
    · rw [if_pos hw, Bool.and_eq_true] at hcond
      obtain ⟨hsp, hhd⟩ := hcond
      have hc : c = ' ' := eq_of_beq hsp
      have htrue : squeezeAux true cs = cs := (ih hcs).2 hhd
      constructor
      · rw [show squeezeAux false (c :: cs) = ' ' :: squeezeAux true cs by
          simp [squeezeAux, hw], htrue, hc]
      · intro hhead
        rw [show headNotWs (c :: cs) = !(isWs c) from rfl, hw] at hhead
        exact absurd hhead (by simp)
    · have hfix : squeezeAux false cs = cs := (ih hcs).1
      have heq : ∀ b, squeezeAux b (c :: cs) = c :: squeezeAux false cs := by
        intro b; simp [squeezeAux, hw]
      exact ⟨by rw [heq false, hfix], fun _ => by rw [heq true, hfix]⟩

theorem okWs_tail {c : Char} {cs : Str} (h : okWs (c :: cs) = true) :
    okWs cs = true := by
  simp only [okWs] at h
  rw [Bool.and_eq_true] at h
  exact h.2

theorem okWs_append_left : ∀ (l t : Str), okWs (l ++ t) = true → okWs l = true := by
  intro l
  induction l with
  | nil => intro t _; rfl
  | cons c l' ih =>
    intro t h
    simp only [List.cons_append, okWs] at h
    rw [Bool.and_eq_true] at h
    obtain ⟨hcond, hrest⟩ := h
    simp only [okWs]
    rw [Bool.and_eq_true]
    refine ⟨?_, ih t hrest⟩
    by_cases hw : isWs c
    · rw [if_pos hw] at hcond ⊢
      rw [Bool.and_eq_true] at hcond ⊢
      refine ⟨hcond.1, ?_⟩
      match l' with
      | [] => rfl
      | d :: l'' => exact hcond.2
    · rw [if_neg hw]

theorem okWs_dropWhile (p : Char → Bool) : ∀ (s : Str), okWs s = true →
    okWs (s.dropWhile p) = true := by
  intro s
  induction s with
  | nil => intro h; exact h
  | cons c cs ih =>
    intro h
    by_cases hp : p c
    · rw [List.dropWhile_cons_of_pos hp]
      exact ih (okWs_tail h)
    · rwa [List.dropWhile_cons_of_neg hp]

theorem headNotWs_dropWhile : ∀ (s : Str), headNotWs (s.dropWhile isWs) = true := by
  intro s
  induction s with
  | nil => rfl
  | cons c cs ih =>
    by_cases hw : isWs c
    · rw [List.dropWhile_cons_of_pos hw]; exact ih
    · rw [List.dropWhile_cons_of_neg hw]
      simp only [headNotWs]
      simpa using hw

theorem dropWhile_eq_self_of_headNotWs : ∀ {s : Str}, headNotWs s = true →
    s.dropWhile isWs = s := by
  intro s h
  match s with
  | [] => rfl
  | d :: s' =>
    have hd : isWs d = false := by simpa [headNotWs] using h
    rw [List.dropWhile_cons_of_neg (by simp [hd])]

theorem headNotWs_append_left : ∀ (x y : Str), headNotWs (x ++ y) = true →
    x ≠ [] → headNotWs x = true := by
  intro x y h hx
  match x with
  | [] => exact absurd rfl hx
  | d :: x' => exact h

theorem mem_dropWhile_subset {p : Char → Bool} {l : Str} {x : Char}
    (hx : x ∈ l.dropWhile p) : x ∈ l := by
  rw [← List.takeWhile_append_dropWhile p l]
  exact List.mem_append_right _ hx

theorem collapseWs_fix {w : Str} (hok : okWs w = true) (hhd : headNotWs w = true)
    (hrev : headNotWs w.reverse = true) : collapseWs w = w := by
  have h1 : squeezeAux false w = w := (sq_fix w hok).1
  show trimStart (trimEnd (squeezeAux false w)) = w
  rw [h1]
  have h2 : trimEnd w = w := by
    show (w.reverse.dropWhile isWs).reverse = w
    rw [dropWhile_eq_self_of_headNotWs hrev, List.reverse_reverse]
  rw [h2]
  exact dropWhile_eq_self_of_headNotWs hhd

theorem collapseWs_idem (z : Str) : collapseWs (collapseWs z) = collapseWs z := by
  have hokq : okWs (squeezeAux false z) = true := (okWs_squeezeAux z).2.1
  obtain ⟨t, ht⟩ := trimEnd_prefix (squeezeAux false z)
  have hokTrim : okWs (trimEnd (squeezeAux false z)) = true :=
    okWs_append_left _ t (ht ▸ hokq)
  have hok : okWs (collapseWs z) = true := okWs_dropWhile isWs _ hokTrim
  have hhd : headNotWs (collapseWs z) = true := headNotWs_dropWhile _
  have hrev : headNotWs (collapseWs z).reverse = true := by
    by_cases hnil : collapseWs z = []
    · rw [hnil]; rfl
    · have hsuffix : trimEnd (squeezeAux false z) =
          (trimEnd (squeezeAux false z)).takeWhile isWs ++ collapseWs z :=
        (List.takeWhile_append_dropWhile isWs (trimEnd (squeezeAux false z))).symm
      have hrevq : headNotWs (trimEnd (squeezeAux false z)).reverse = true := by
        show headNotWs
          ((squeezeAux false z).reverse.dropWhile isWs).reverse.reverse = true
        rw [List.reverse_reverse]
        exact headNotWs_dropWhile _
      rw [hsuffix, List.reverse_append] at hrevq
      refine headNotWs_append_left _ _ hrevq ?_
      simpa using hnil
  exact collapseWs_fix hok hhd hrev

theorem no_amp_cleanHtml {s : Str} (h : '&' ∉ s) : '&' ∉ cleanHtml s := by
  intro hm
  have h1 : '&' ∈ trimEnd (squeezeAux false (stripTags (unescape s))) :=
    mem_dropWhile_subset hm
  have h2 : '&' ∈ squeezeAux false (stripTags (unescape s)) := by
    have h1' : '&' ∈
        (squeezeAux false (stripTags (unescape s))).reverse.dropWhile isWs :=
      List.mem_reverse.mp h1
    exact List.mem_reverse.mp (mem_dropWhile_subset h1')
  rcases squeezeAux_mem _ false '&' h2 with h3 | h3
  · exact absurd h3 (by decide)
  · have h4 : '&' ∈ unescape s := stripTags_mem h3
    rw [unescape_no_amp s h] at h4
    exact h h4

theorem hasTag_cleanHtml_all (s : Str) : hasTag (cleanHtml s) = false :=
  hasTag_collapseWs (hasTag_stripTags (unescape s))

/-! ### Claims C4 and C5: the text normalizer -/

/-- Claim C4, counterexample: `clean_html` is not idempotent.  On the input
`"&amp;amp;"` one application yields `"&amp;"` (the entity decodes once),
and a second application decodes again to `"&"`. -/
theorem cleanHtml_not_idempotent_cx :
    cleanHtml (cleanHtml "&amp;amp;".data) ≠ cleanHtml "&amp;amp;".data := by
  decide

/-- Claim C4 (amended): the text normalizer is idempotent on every input
that contains no `&` character.  On such inputs entity unescaping is the
identity, stripping leaves no complete `<...>` span, and whitespace
collapsing is idempotent; a second application therefore changes nothing.
(Inputs containing `&` can decode twice, as the counterexample shows.) -/
theorem cleanHtml_idem_amp_free (s : Str) (h : '&' ∉ s) :
    cleanHtml (cleanHtml s) = cleanHtml s := by
  have hy : '&' ∉ cleanHtml s := no_amp_cleanHtml h
  have h1 : unescape (cleanHtml s) = cleanHtml s := unescape_no_amp _ hy
  have h2 : stripTags (cleanHtml s) = cleanHtml s :=
    stripTags_fix (hasTag_cleanHtml_all s)
  show collapseWs (stripTags (unescape (cleanHtml s))) = cleanHtml s
  rw [h1, h2]
  exact collapseWs_idem _

theorem cleanHtml_idem_amp_free_witness :
    '&' ∉ "a  <b> c".data ∧
    cleanHtml (cleanHtml "a  <b> c".data) = cleanHtml "a  <b> c".data :=
  ⟨by decide, cleanHtml_idem_amp_free "a  <b> c".data (by decide)⟩

/-- Claim C5, counterexample: the output of `clean_html` can contain a
literal `<`.  The regex `<[^>]+>` only removes complete tag spans, so a
`<` with no following `>` survives: `clean_html("1 < 2") = "1 < 2"`. -/
theorem cleanHtml_keeps_lone_lt_cx : '<' ∈ cleanHtml "1 < 2".data := by
  decide

/-- Claim C5 (amended): for every input, the output of `clean_html`
contains no complete tag span, i.e. no substring consisting of `<`, one or
more non-`>` characters, then `>`.  (Bare `<` or `>` characters from text
content or unescaped entities can survive, as the counterexample shows.) -/
theorem cleanHtml_no_complete_tag (s : Str) : hasTag (cleanHtml s) = false :=
  hasTag_cleanHtml_all s

/-! ### The title matcher (`check_library`, app.py lines 900-975) -/

/-- `re.sub(r'\([^)]*\)', '', s)` (app.py lines 902, 912) as a one-pass
scanner.  In state `some buf` we have read a `(` and then the reversed
characters `buf`, none of which is `)`.  Reaching `)` deletes the
parenthesized span (which may be empty, since the regex body is `[^)]*`);
end of input flushes the buffer verbatim. -/
def rpAux : Option Str → Str → Str
  | none, [] => []
  | some buf, [] => '(' :: buf.reverse
  | none, c :: cs => if c = '(' then rpAux (some []) cs else c :: rpAux none cs
  | some buf, c :: cs =>
    if c = ')' then rpAux none cs else rpAux (some (c :: buf)) cs

/-- Removal of parenthesized spans, `re.sub(r'\([^)]*\)', '', s)`. -/
def removeParens (s : Str) : Str := rpAux none s

/-- Title normalization in `check_library` (app.py lines 902-904 and
912-914): drop parenthesized spans, collapse whitespace and trim, then
lower-case.  `Char.toLower` models Python `str.lower` on the ASCII range. -/
def normTitle (t : Str) : Str := (collapseWs (removeParens t)).map Char.toLower

/-- Python `str.split()` with no separator (app.py lines 923-924): split on
whitespace runs, dropping empty tokens.  `cur` holds the reversed current
token. -/
def splitWsAux : Str → Str → List Str
  | cur, [] => if cur = [] then [] else [cur.reverse]
  | cur, c :: cs =>
    if isWs c then
      if cur = [] then splitWsAux [] cs else cur.reverse :: splitWsAux [] cs
    else splitWsAux (c :: cur) cs

def splitWs (s : Str) : List Str := splitWsAux [] s

/-- The punctuation set of `w.strip(',.;:!?/')` (app.py lines 923-924). -/
def puncts : Str := ",.;:!?/".data

/-- Python `str.strip(chars)`: drop characters of `chars` from both ends. -/
def stripChars (chars : Str) (w : Str) : Str :=
  ((w.dropWhile (fun c => chars.contains c)).reverse.dropWhile
    (fun c => chars.contains c)).reverse

/-- The word set of a normalized title (app.py lines 923-924):
`set(w.strip(',.;:!?/') for w in s.split() if len(w.strip(',.;:!?/')) > 0)`. -/
def titleWords (s : Str) : Finset Str :=
  (((splitWs s).map (stripChars puncts)).filter (fun w => w ≠ [])).toFinset

/-- The filler-word set of app.py line 927. -/
def fillerWords : Finset Str :=
  ["a".data, "an".data, "the".data, "and".data, "or".data, "but".data].toFinset

/-- Fuelled binary logarithm: `log2F n n` is the position of the highest
set bit of `n` (0 for `n ≤ 1`); fuel `n` always suffices since the argument
halves each step. -/
def log2F : Nat → Nat → Nat
  | 0, _ => 0
  | fuel + 1, n => if n ≤ 1 then 0 else log2F fuel (n / 2) + 1

def nlog2 (n : Nat) : Nat := log2F n n

/-- `2 ^ e ≤ p / q` over the exact rational, for positive `p`, `q`. -/
def pow2LE (p q : Nat) (e : Int) : Bool :=
  if 0 ≤ e then decide (q * 2 ^ e.toNat ≤ p) else decide (q ≤ p * 2 ^ (-e).toNat)

/-- `⌊log₂ (p / q)⌋` for positive `p`, `q`: the candidate from the integer
logarithms is off by at most one, always downward. -/
def floorLog2 (p q : Nat) : Int :=
  let c : Int := (nlog2 p : Int) - (nlog2 q : Int)
  if pow2LE p q c then c else c - 1

/-- Round-to-nearest, ties-to-even, of the positive rational `p / q` onto
the IEEE-754 binary64 grid: the result `(m, g)` has exact value
`m * 2 ^ g`, where the grid spacing `2 ^ g` is that of the quotient's
binade, clamped at the subnormal spacing `2 ^ (-1074)`.  (No overflow
handling: every value this file produces is far below the overflow
threshold.) -/
def rnRat (p q : Nat) : Nat × Int :=
  if p = 0 ∨ q = 0 then (0, 0)
  else
    let E := floorLog2 p q
    let g : Int := max (E - 52) (-1074)
    let nd : Nat × Nat :=
      if 0 ≤ g then (p, q * 2 ^ g.toNat) else (p * 2 ^ (-g).toNat, q)
    let k := nd.1 / nd.2
    let r := nd.1 % nd.2
    let m := if 2 * r < nd.2 then k
             else if nd.2 < 2 * r then k + 1
             else if k % 2 = 0 then k else k + 1
    (m, g)

/-- Model of CPython's `int((c / l) * 100)` (app.py line 953): `c / l` on
ints is the correctly rounded binary64 double of the exact quotient,
`* 100` is the correctly rounded double of the exact product, and `int`
truncates toward zero (here: floor, the value being nonnegative).  Checked
against CPython on exhaustive small inputs and random inputs up to and
beyond `2 ^ 53`; it differs from the exact `⌊100 * c / l⌋` at e.g.
`c = 29, l = 50` (57 versus 58). -/
def pyPercent (c l : Nat) : Nat :=
  let d1 := rnRat c l
  let d2 := if 0 ≤ d1.2 then rnRat (d1.1 * 100 * 2 ^ d1.2.toNat) 1
            else rnRat (d1.1 * 100) (2 ^ (-d1.2).toNat)
  if 0 ≤ d2.2 then d2.1 * 2 ^ d2.2.toNat else d2.1 / 2 ^ (-d2.2).toNat

/-- The per-entry match score of `check_library` (app.py lines 917-953).
The final branch is `int((len(common_words) / longer_word_count) * 100)`,
modelled by `pyPercent`: the two divisions and the multiplication follow
CPython's binary64 float arithmetic exactly. -/
def matchScore (bookTitle entryTitle : Str) : Nat :=
  let titleLower := normTitle bookTitle
  let entryLower := normTitle entryTitle
  if titleLower = entryLower then 100
  else
    let titleWs := titleWords titleLower
    let entryWs := titleWords entryLower
    let titleSig := titleWs \ fillerWords
    let entrySig := entryWs \ fillerWords
    let common := titleWs ∩ entryWs
    let commonSig := titleSig ∩ entrySig
    if common.card = 0 then 0
    else if common.card = min titleWs.card entryWs.card then 85
    else if commonSig.card = min titleSig.card entrySig.card ∧
        1 ≤ min titleSig.card entrySig.card then 80
    else pyPercent common.card (max titleWs.card entryWs.card)

/-- Claim C2's scoring formula, written from the claim's words: 100 on
equal normalized titles; over the word sets, 0 on empty intersection; 85
when the intersection is as large as the smaller set; 80 when the
filler-stripped intersection is as large as the smaller filler-stripped set
and nonempty; else `floor(100 * |intersection| / max)` — the floor of the
exact ratio, which the counterexample below separates from the program. -/
def specMatchScore (q e : Str) : Nat :=
  if normTitle q = normTitle e then 100
  else
    if titleWords (normTitle q) ∩ titleWords (normTitle e) = ∅ then 0
    else if (titleWords (normTitle q) ∩ titleWords (normTitle e)).card =
        min (titleWords (normTitle q)).card (titleWords (normTitle e)).card then 85
    else if ((titleWords (normTitle q) \ fillerWords) ∩
          (titleWords (normTitle e) \ fillerWords)).card =
        min (titleWords (normTitle q) \ fillerWords).card
          (titleWords (normTitle e) \ fillerWords).card ∧
        1 ≤ min (titleWords (normTitle q) \ fillerWords).card
          (titleWords (normTitle e) \ fillerWords).card then 80
    else 100 * (titleWords (normTitle q) ∩ titleWords (normTitle e)).card /
      max (titleWords (normTitle q)).card (titleWords (normTitle e)).card

/-- A query title of 50 distinct words, 29 of them shared with
`cxEntryTitle`. -/
def cxQueryTitle : Str :=
  ("s01 s02 s03 s04 s05 s06 s07 s08 s09 s10 s11 s12 s13 s14 s15 s16 s17 " ++
   "s18 s19 s20 s21 s22 s23 s24 s25 s26 s27 s28 s29 q01 q02 q03 q04 q05 " ++
   "q06 q07 q08 q09 q10 q11 q12 q13 q14 q15 q16 q17 q18 q19 q20 q21").data

/-- A catalog entry title of 50 distinct words, 29 shared with
`cxQueryTitle`. -/
def cxEntryTitle : Str :=
  ("s01 s02 s03 s04 s05 s06 s07 s08 s09 s10 s11 s12 s13 s14 s15 s16 s17 " ++
   "s18 s19 s20 s21 s22 s23 s24 s25 s26 s27 s28 s29 e01 e02 e03 e04 e05 " ++
   "e06 e07 e08 e09 e10 e11 e12 e13 e14 e15 e16 e17 e18 e19 e20 e21").data

/-- Claim C2, counterexample: the program's score is not the claimed
`floor(100 * |intersection| / max)`.  With 50-word titles sharing 29 words
(no fillers, so the 85 and 80 branches fail), CPython evaluates
`int((29 / 50) * 100)`: `29 / 50` rounds to the double just below `0.58`,
so the product truncates to 57, while the claimed exact floor is
`⌊2900 / 50⌋ = 58`. -/
theorem matchScore_float_floor_cx :
    matchScore cxQueryTitle cxEntryTitle = 57 ∧
    specMatchScore cxQueryTitle cxEntryTitle = 58 := by
  refine ⟨by decide, by decide⟩

/-- Claim C2 (amended): the match score equals the claimed formula with the
final branch read as CPython computes it — `int((|intersection| / max) * 100)`
in binary64 float arithmetic (correctly rounded division and
multiplication, truncation toward zero) rather than the exact
`floor(100 * |intersection| / max)`; all other branches (100, 0, 85, 80 and
their conditions) are exactly as claimed. -/
theorem matchScore_eq_spec_float (q e : Str) :
    matchScore q e =
      (if normTitle q = normTitle e then 100
      else
        if titleWords (normTitle q) ∩ titleWords (normTitle e) = ∅ then 0
        else if (titleWords (normTitle q) ∩ titleWords (normTitle e)).card =
            min (titleWords (normTitle q)).card
              (titleWords (normTitle e)).card then 85
        else if ((titleWords (normTitle q) \ fillerWords) ∩
              (titleWords (normTitle e) \ fillerWords)).card =
            min (titleWords (normTitle q) \ fillerWords).card
              (titleWords (normTitle e) \ fillerWords).card ∧
            1 ≤ min (titleWords (normTitle q) \ fillerWords).card
              (titleWords (normTitle e) \ fillerWords).card then 80
        else pyPercent
          ((titleWords (normTitle q) ∩ titleWords (normTitle e)).card)
          (max (titleWords (normTitle q)).card
            (titleWords (normTitle e)).card)) := by
  unfold matchScore
  by_cases h1 : normTitle q = normTitle e
  · rw [if_pos h1, if_pos h1]
  · rw [if_neg h1, if_neg h1]
    by_cases h2 : (titleWords (normTitle q) ∩ titleWords (normTitle e)).card = 0
    · rw [if_pos h2, if_pos (Finset.card_eq_zero.mp h2)]
    · have hne : ¬ titleWords (normTitle q) ∩ titleWords (normTitle e) = ∅ :=
        fun hh => h2 (by rw [hh, Finset.card_empty])
      rw [if_neg h2, if_neg hne]

theorem matchScore_exact_sample : matchScore "Dune".data "Dune".data = 100 := by
  decide

theorem matchScore_subset_sample :
    matchScore "The Visitor".data "Running Blind / The Visitor".data = 85 := by
  decide

theorem matchScore_disjoint_sample :
    matchScore "Foundation".data "Dune".data = 0 := by
  decide

/-- `a.isPrefixOf b` for character lists, written out so the kernel
evaluates it. -/
def isPre : Str → Str → Bool
  | [], _ => true
  | _ :: _, [] => false
  | a :: as, b :: bs => a == b && isPre as bs

/-- Python's substring test `pat in s`. -/
def containsSub (pat : Str) : Str → Bool
  | [] => isPre pat []
  | c :: cs => isPre pat (c :: cs) || containsSub pat cs

/-- A parsed link as built by `parse_opds_feed` (app.py lines 112-116). -/
structure OLink where
  href : Str
  rel : Str
  linkType : Option Str
deriving DecidableEq

/-- A catalog entry as consumed by `check_library`'s matching loop: the
fields of the parsed-entry dictionary it reads (title and links). -/
structure CatEntry where
  title : Str
  links : List OLink
deriving DecidableEq

/-- The `found_entry` record of `check_library` (app.py lines 965-970),
minus the constant `in_library: True` field. -/
structure FoundEntry where
  score : Nat
  opdsTitle : Str
  downloadUrl : Option Str
deriving DecidableEq

/-- The acquisition-link scan of app.py lines 959-963: the first link whose
relation is nonempty and contains the substring `acquisition`. -/
def firstAcqLink : List OLink → Option Str
  | [] => none
  | l :: ls =>
    if !l.rel.isEmpty && containsSub "acquisition".data l.rel then some l.href
    else firstAcqLink ls

/-- The entry loop of `check_library` for one query title (app.py lines
909-970): scan the entries in feed order, keeping the running best score
(starting at 0) and replacing the retained entry only when a score is both
at least 70 and strictly greater than the best so far. -/
def bestAux (q : Str) : Nat → Option FoundEntry → List CatEntry → Option FoundEntry
  | _, found, [] => found
  | best, found, e :: es =>
    if 70 ≤ matchScore q e.title ∧ best < matchScore q e.title then
      bestAux q (matchScore q e.title)
        (some ⟨matchScore q e.title, e.title, firstAcqLink e.links⟩) es
    else bestAux q best found es

def bestMatch (q : Str) (es : List CatEntry) : Option FoundEntry :=
  bestAux q 0 none es

/-- The per-title result shape of `check_library` (app.py lines 972-975):
`in_library: false` with no other fields when no entry qualifies. -/
structure MatchResult where
  inLibrary : Bool
  found : Option FoundEntry
deriving DecidableEq

def libResult (q : Str) (es : List CatEntry) : MatchResult :=
  match bestMatch q es with
  | some f => ⟨true, some f⟩
  | none => ⟨false, none⟩

/-- `check_library` over all query titles: each title is matched
independently against the same parsed entry list. -/
def checkLibrary (titles : List Str) (es : List CatEntry) :
    List (Str × MatchResult) :=
  titles.map (fun t => (t, libResult t es))

/-- The maximum match score over a list of entries (0 when empty). -/
def maxScoreList (q : Str) (es : List CatEntry) : Nat :=
  es.foldr (fun e m => max (matchScore q e.title) m) 0

/-- `scoreEq q m e` holds when entry `e` scores exactly `m` against query
`q`; used to name the first entry attaining the best score. -/
def scoreEq (q : Str) (m : Nat) (e : CatEntry) : Bool :=
  matchScore q e.title == m

/-- Claim C3's selection rule, written from the specification's words:
keep a match only when the best score over all entries is at least 70; the
kept entry is the first one in feed order attaining that best score; the
reported fields are the score, the entry's original title, and its first
acquisition link. -/
def specBestMatch (q : Str) (es : List CatEntry) : Option FoundEntry :=
  if 70 ≤ maxScoreList q es then
    (es.find? (scoreEq q (maxScoreList q es))).map
      (fun e => ⟨maxScoreList q es, e.title, firstAcqLink e.links⟩)
  else none

theorem maxScoreList_cons (q : Str) (e : CatEntry) (es : List CatEntry) :
    maxScoreList q (e :: es) = max (matchScore q e.title) (maxScoreList q es) :=
  rfl

theorem bestAux_spec (q : Str) : ∀ (es : List CatEntry) (best : Nat)
    (found : Option FoundEntry),
    bestAux q best found es =
      if 70 ≤ maxScoreList q es ∧ best < maxScoreList q es then
        (es.find? (scoreEq q (maxScoreList q es))).map
          (fun e => ⟨maxScoreList q es, e.title, firstAcqLink e.links⟩)
      else found := by
  intro es
  induction es with
  | nil =>
    intro best found
    have h : ¬ (70 ≤ maxScoreList q [] ∧ best < maxScoreList q []) := by
      simp [maxScoreList]
    rw [if_neg h]
    rfl
  | cons e es ih =>
    intro best found
    rw [maxScoreList_cons]
    by_cases hup : 70 ≤ matchScore q e.title ∧ best < matchScore q e.title
    · rw [show bestAux q best found (e :: es) =
        bestAux q (matchScore q e.title)
          (some ⟨matchScore q e.title, e.title, firstAcqLink e.links⟩) es
        from by rw [bestAux, if_pos hup]]
      rw [ih]
      have houter : 70 ≤ max (matchScore q e.title) (maxScoreList q es) ∧
          best < max (matchScore q e.title) (maxScoreList q es) :=
        ⟨Nat.le_trans hup.1 (Nat.le_max_left _ _),
         Nat.lt_of_lt_of_le hup.2 (Nat.le_max_left _ _)⟩
      rw [if_pos houter]
      by_cases hrec : 70 ≤ maxScoreList q es ∧
          matchScore q e.title < maxScoreList q es
      · rw [if_pos hrec]
        have hmax : max (matchScore q e.title) (maxScoreList q es) =
            maxScoreList q es := Nat.max_eq_right (Nat.le_of_lt hrec.2)
        rw [hmax]
        have hpred : ¬ scoreEq q (maxScoreList q es) e = true := by
          simp only [scoreEq, beq_iff_eq]
          exact Nat.ne_of_lt hrec.2
        rw [List.find?_cons_of_neg es hpred]
      · rw [if_neg hrec]
        have hmax : max (matchScore q e.title) (maxScoreList q es) =
            matchScore q e.title := by
          rcases Nat.le_total (matchScore q e.title) (maxScoreList q es) with h | h
          · rcases Nat.eq_or_lt_of_le h with h' | h'
            · rw [h']; exact Nat.max_self _
            · exact absurd ⟨Nat.le_trans hup.1 (Nat.le_of_lt h'), h'⟩ hrec
          · exact Nat.max_eq_left h
        rw [hmax]
        have hpred : scoreEq q (matchScore q e.title) e = true := by
          simp [scoreEq]
        rw [List.find?_cons_of_pos es hpred]
        rfl
    · rw [show bestAux q best found (e :: es) = bestAux q best found es
        from by rw [bestAux, if_neg hup]]
      rw [ih]
      by_cases houter : 70 ≤ max (matchScore q e.title) (maxScoreList q es) ∧
          best < max (matchScore q e.title) (maxScoreList q es)
      · have hsne : matchScore q e.title ≠
            max (matchScore q e.title) (maxScoreList q es) := by
          intro hs
          exact hup ⟨hs ▸ houter.1, hs ▸ houter.2⟩
        have hmax : max (matchScore q e.title) (maxScoreList q es) =
            maxScoreList q es := by
          rcases Nat.le_total (matchScore q e.title) (maxScoreList q es) with h | h
          · exact Nat.max_eq_right h
          · exact absurd (Nat.max_eq_left h).symm hsne
        rw [hmax] at houter hsne ⊢
        rw [if_pos houter, if_pos houter]
        have hpred : ¬ scoreEq q (maxScoreList q es) e = true := by
          simp only [scoreEq, beq_iff_eq]
          exact hsne
        rw [List.find?_cons_of_neg es hpred]
      · have hrec : ¬ (70 ≤ maxScoreList q es ∧ best < maxScoreList q es) := by
          intro h
          exact houter ⟨Nat.le_trans h.1 (Nat.le_max_right _ _),
            Nat.lt_of_lt_of_le h.2 (Nat.le_max_right _ _)⟩
        rw [if_neg hrec, if_neg houter]

/-- Claim C3: for every query title only the highest-scoring entry is
retained, only when its score is at least 70; on ties the first entry in
feed order wins; the reported download URL is the first link whose relation
contains `acquisition` (none otherwise) and the reported title is the
matched entry's original title; and a title with no entry scoring at least
70 yields `inLibrary = false` with no populated fields (`found = none`). -/
theorem bestMatch_eq_spec (q : Str) (es : List CatEntry) :
    bestMatch q es = specBestMatch q es ∧
    (libResult q es).inLibrary = (bestMatch q es).isSome ∧
    (libResult q es).found = bestMatch q es := by
  refine ⟨?_, ?_, ?_⟩
  · rw [bestMatch, bestAux_spec, specBestMatch]
    by_cases h : 70 ≤ maxScoreList q es
    · have h0 : 0 < maxScoreList q es := Nat.lt_of_lt_of_le (by omega) h
      rw [if_pos ⟨h, h0⟩, if_pos h]
    · rw [if_neg (fun hh => h hh.1), if_neg h]
  · rw [libResult]
    match bestMatch q es with
    | some f => rfl
    | none => rfl
  · rw [libResult]
    match bestMatch q es with
    | some f => rfl
    | none => rfl

/-! ### The feed parser (`parse_opds_feed`, app.py lines 43-120)

The XML layer (`ET.fromstring`, namespace lookup, `findall`/`find`) is the
external collaborator: an entry element is modelled by the values the
parser reads from it.  An `Option (Option Str)` field distinguishes a
missing element (`none`) from a present element whose `.text` is Python
`None` (`some none`).  `MalformedFeedError` (unparseable bytes) is raised
by that collaborator before this model is reached. -/

structure XMeta where
  property : Option Str
  idAttr : Option Str
  refines : Option Str
  text : Option Str
deriving DecidableEq

structure XLink where
  href : Option Str
  rel : Option Str
  linkType : Option Str
deriving DecidableEq

structure XEntry where
  titleElem : Option (Option Str)
  idElem : Option (Option Str)
  summaryElem : Option (Option Str)
  contentElem : Option (Option Str)
  metas : List XMeta
  seriesElem : Option (Option Str × Option Str)
  authorNameElem : Option (Option Str)
  links : List XLink
deriving DecidableEq

/-- A parsed entry dictionary (app.py lines 58-65 and later assignments).
`author` is `none` when the key was never set (no author element). -/
structure OEntry where
  title : Option Str
  id : Option Str
  links : List OLink
  seriesName : Option Str
  seriesIndex : Option Str
  description : Str
  author : Option (Option Str)
deriving DecidableEq

/-- `title_text` (app.py line 54): the element's text when the element is
present (possibly `None`), else the sentinel. -/
def titleTextOf (e : XEntry) : Option Str :=
  e.titleElem.elim (some "Unknown Title".data) (fun t => t)

/-- The container-label denylist of app.py line 55. -/
def containerLabels : List Str :=
  ["Libraries".data, "Shelves".data, "Magic Shelves".data]

/-- The skip test of app.py lines 55-56; a `None` title is never in the
list. -/
def skipEntry (e : XEntry) : Bool :=
  (titleTextOf e).elim false (fun t => containerLabels.contains t)

/-- The `series_id and meta.get('refines') == f"#{series_id}"` guard of
app.py line 73: the recorded collection id must be truthy (present and
nonempty) and the `refines` attribute must equal `#` followed by it. -/
def gpMatches (sid : Option Str) (refines : Option Str) : Bool :=
  match sid, refines with
  | some s, some r => !s.isEmpty && (r == '#' :: s)
  | _, _ => false

/-- One step of the metadata loop of app.py lines 67-74 over the state
`(series_name, series_index, series_id)`. -/
def metaStep (st : Option Str × Option Str × Option Str) (m : XMeta) :
    Option Str × Option Str × Option Str :=
  if m.property == some "belongs-to-collection".data then
    (m.text, st.2.1, m.idAttr)
  else if m.property == some "group-position".data && gpMatches st.2.2 m.refines then
    (st.1, m.text, st.2.2)
  else st

def metaScan (ms : List XMeta) : Option Str × Option Str × Option Str :=
  ms.foldl metaStep (none, none, none)

/-- Series resolution (app.py lines 67-80): the metadata scan wins unless
it produced a falsy name (`None` or the empty string), in which case a
schema.org `Series` element's `name`/`position` attributes replace both
fields when such an element exists. -/
def seriesResolve (e : XEntry) : Option Str × Option Str :=
  if (metaScan e.metas).1 = none ∨ (metaScan e.metas).1 = some [] then
    match e.seriesElem with
    | some np => (np.1, np.2)
    | none => ((metaScan e.metas).1, (metaScan e.metas).2.1)
  else ((metaScan e.metas).1, (metaScan e.metas).2.1)

/-- Description extraction (app.py lines 82-88): summary text if the
summary element exists, else content text, else empty; `None` text counts
as empty; the result goes through `clean_html`. -/
def descOf (e : XEntry) : Str :=
  match e.summaryElem with
  | some t => cleanHtml (t.getD [])
  | none =>
    match e.contentElem with
    | some t => cleanHtml (t.getD [])
    | none => cleanHtml []

/-- Index of the first occurrence of `pat` in `s`. -/
def findSub (pat : Str) : Str → Option Nat
  | [] => if isPre pat [] then some 0 else none
  | c :: cs => if isPre pat (c :: cs) then some 0 else (findSub pat cs).map (· + 1)

/-- Model of `urllib.parse.urljoin` (app.py line 108) restricted to the
inputs this call site produces: a base of the form `scheme://host[/path]`
and an href carrying no scheme of its own (hrefs starting with `http` never
reach the call).  A root-relative href replaces the base's path; any other
href replaces everything after the last `/` of the base's path; no
dot-segment normalization (the feeds' hrefs contain none). -/
def urljoin (base href : Str) : Str :=
  match findSub "://".data base with
  | none => href
  | some i =>
    let authStart := i + 3
    let after := base.drop authStart
    let pathIdx := match findSub "/".data after with
      | some j => authStart + j
      | none => base.length
    let root := base.take pathIdx
    let basePath := base.drop pathIdx
    if isPre "/".data href then root ++ href
    else if basePath.isEmpty then root ++ '/' :: href
    else root ++ (basePath.reverse.dropWhile (fun c => !(c == '/'))).reverse ++ href

/-- The link loop body of app.py lines 94-117: relation defaults to the
empty string; a root-relative href with an image/thumbnail relation is
rewritten to the image-proxy form carrying the original path; an href
starting with `http` passes through; any other nonempty href is resolved
against the base URL; a missing or empty href yields the empty string. -/
def mkLink (base : Str) (l : XLink) : OLink :=
  let rel := l.rel.getD []
  let href :=
    match l.href with
    | none => []
    | some h =>
      if h.isEmpty then []
      else if isPre "/".data h &&
          (containsSub "image".data rel || containsSub "thumbnail".data rel) then
        "/api/opds/image-proxy?url=".data ++ h
      else if isPre "http".data h then h
      else urljoin base h
  ⟨href, rel, l.linkType⟩

/-- The per-entry dictionary built by app.py lines 58-119. -/
def mkEntry (base : Str) (e : XEntry) : OEntry :=
  { title := titleTextOf e
    id := e.idElem.elim (some []) (fun t => t)
    links := e.links.map (mkLink base)
    seriesName := (seriesResolve e).1
    seriesIndex := (seriesResolve e).2
    description := descOf e
    author := e.authorNameElem }

/-- `parse_opds_feed` (app.py lines 43-120) over the entry elements of a
well-formed feed, in document order. -/
def parseFeed (entries : List XEntry) (base : Str) : List OEntry :=
  (entries.filter (fun e => !skipEntry e)).map (mkEntry base)

/-! ### Claim C9: container labels never emitted -/

/-- Claim C9: no entry emitted by `parseFeed` has title exactly
`Libraries`, `Shelves` or `Magic Shelves`; such entries are skipped. -/
theorem parseFeed_no_container_labels (entries : List XEntry) (base : Str)
    (o : OEntry) (ho : o ∈ parseFeed entries base) :
    o.title ≠ some "Libraries".data ∧ o.title ≠ some "Shelves".data ∧
    o.title ≠ some "Magic Shelves".data := by
  rw [parseFeed] at ho
  obtain ⟨e, he, rfl⟩ := List.mem_map.mp ho
  have hskip : skipEntry e = false := by
    have h2 := (List.mem_filter.mp he).2
    simpa using h2
  have htitle : (mkEntry base e).title = titleTextOf e := rfl
  refine ⟨?_, ?_, ?_⟩ <;> intro hT <;> rw [htitle] at hT <;>
    rw [skipEntry, hT] at hskip <;> exact absurd hskip (by decide)

def sampleEntry : XEntry :=
  { titleElem := some (some "Dune".data), idElem := some (some "1".data),
    summaryElem := none, contentElem := none, metas := [],
    seriesElem := none, authorNameElem := none, links := [] }

theorem parseFeed_no_container_labels_witness :
    (mkEntry "http://b/".data sampleEntry).title ≠ some "Libraries".data ∧
    (mkEntry "http://b/".data sampleEntry).title ≠ some "Shelves".data ∧
    (mkEntry "http://b/".data sampleEntry).title ≠ some "Magic Shelves".data :=
  parseFeed_no_container_labels [sampleEntry] "http://b/".data
    (mkEntry "http://b/".data sampleEntry) (by decide)

/-! ### Claim C10: empty title element yields a null title -/

/-- Claim C10: the `Unknown Title` sentinel applies only to an absent title
element.  An entry whose title element is present but has no text gets a
null title, is not matched by the container-label denylist, and is emitted,
not skipped. -/
theorem parseFeed_present_empty_title (e : XEntry) (base : Str)
    (h : e.titleElem = some none) :
    parseFeed [e] base = [mkEntry base e] ∧ (mkEntry base e).title = none ∧
    (mkEntry base e).title ≠ some "Unknown Title".data := by
  have htt : titleTextOf e = none := by rw [titleTextOf, h]; rfl
  have hskip : skipEntry e = false := by rw [skipEntry, htt]; rfl
  refine ⟨?_, htt, by rw [show (mkEntry base e).title = titleTextOf e from rfl, htt]; simp⟩
  rw [parseFeed]
  rw [show List.filter (fun e => !skipEntry e) [e] = [e] by
    simp [List.filter, hskip]]
  rfl

def emptyTitleEntry : XEntry :=
  { titleElem := some none, idElem := none, summaryElem := none,
    contentElem := none, metas := [], seriesElem := none,
    authorNameElem := none, links := [] }

theorem parseFeed_present_empty_title_witness :
    parseFeed [emptyTitleEntry] "http://b/".data =
      [mkEntry "http://b/".data emptyTitleEntry] ∧
    (mkEntry "http://b/".data emptyTitleEntry).title = none ∧
    (mkEntry "http://b/".data emptyTitleEntry).title ≠ some "Unknown Title".data :=
  parseFeed_present_empty_title emptyTitleEntry "http://b/".data (by decide)

/-! ### Claim C1: `group-position` attachment across sibling collections -/

def belongsMeta (nm collId : Str) : XMeta :=
  ⟨some "belongs-to-collection".data, some collId, none, some nm⟩

def gpMeta (ref pos : Str) : XMeta :=
  ⟨some "group-position".data, none, some ref, some pos⟩

/-- A minimal entry carrying only metadata elements. -/
def plainEntry (ms : List XMeta) : XEntry :=
  ⟨some (some "T".data), none, none, none, ms, none, none, []⟩

/-- Claim C1, counterexample: with metadata in the document order
`belongs-to-collection(id=a, "A")`, `group-position(refines=#a, "1")`,
`belongs-to-collection(id=b, "B")`, the parser emits seriesName `B` paired
with seriesIndex `1` — the group-position refining collection `a` attached
to the *other* collection's name, because the later collection element
overwrites the name without clearing the already-accepted index. -/
theorem seriesIndex_crosstalk_cx :
    (mkEntry [] (plainEntry [belongsMeta "A".data "a".data,
      gpMeta "#a".data "1".data, belongsMeta "B".data "b".data])).seriesName =
      some "B".data ∧
    (mkEntry [] (plainEntry [belongsMeta "A".data "a".data,
      gpMeta "#a".data "1".data, belongsMeta "B".data "b".data])).seriesIndex =
      some "1".data ∧
    "a".data ≠ "b".data := by
  refine ⟨by decide, by decide, by decide⟩

theorem metaStep_belongs (st : Option Str × Option Str × Option Str)
    (nm collId : Str) :
    metaStep st (belongsMeta nm collId) = (some nm, st.2.1, some collId) := by
  rw [metaStep, if_pos (show
    ((belongsMeta nm collId).property == some "belongs-to-collection".data) = true by
      rw [show (belongsMeta nm collId).property =
        some "belongs-to-collection".data from rfl]
      exact beq_self_eq_true _)]
  rfl

theorem metaStep_gp (st : Option Str × Option Str × Option Str) (ref pos : Str) :
    metaStep st (gpMeta ref pos) =
      (if gpMatches st.2.2 (some ref) then (st.1, some pos, st.2.2) else st) := by
  rw [metaStep,
    if_neg (by rw [show (gpMeta ref pos).property = some "group-position".data
      from rfl]; decide)]
  rw [show ((gpMeta ref pos).property == some "group-position".data) = true
    from rfl]
  rw [show (gpMeta ref pos).refines = some ref from rfl]
  rw [Bool.true_and]
  by_cases hg : gpMatches st.2.2 (some ref) = true
  · rw [if_pos hg, if_pos hg]
    rfl
  · rw [if_neg hg, if_neg (by simpa using hg)]

theorem seriesResolve_plain (ms : List XMeta) :
    seriesResolve (plainEntry ms) = ((metaScan ms).1, (metaScan ms).2.1) := by
  rw [seriesResolve]
  split
  · rfl
  · rfl

/-- Claim C1 (amended): the `refines` guard is checked against the most
recently scanned collection id.  When both sibling collection elements
precede the group-position element, an index refining one collection is
never paired with the other collection's name: whichever collection comes
second supplies both the final name and the id the guard compares against,
so the index is attached exactly when `refines` names that second
collection.  (When a collection element *follows* the group-position, the
stale index can be paired with the later name, as the counterexample
shows.) -/
theorem seriesIndex_refines_guard (na nb a b pos base : Str)
    (hab : a ≠ b) (ha : a ≠ []) :
    (mkEntry base (plainEntry [belongsMeta na a, belongsMeta nb b,
        gpMeta ('#' :: a) pos])).seriesName = some nb ∧
    (mkEntry base (plainEntry [belongsMeta na a, belongsMeta nb b,
        gpMeta ('#' :: a) pos])).seriesIndex = none ∧
    (mkEntry base (plainEntry [belongsMeta nb b, belongsMeta na a,
        gpMeta ('#' :: a) pos])).seriesName = some na ∧
    (mkEntry base (plainEntry [belongsMeta nb b, belongsMeta na a,
        gpMeta ('#' :: a) pos])).seriesIndex = some pos := by
  have hgfalse : gpMatches (some b) (some ('#' :: a)) = false := by
    rw [gpMatches]
    by_cases hb : b = []
    · subst hb
      rfl
    · have hbe : b.isEmpty = false := by
        cases b with
        | nil => exact absurd rfl hb
        | cons x xs => rfl
      have hne : (('#' :: a : Str) == ('#' :: b)) = false := by
        rw [beq_eq_false_iff_ne]
        intro hcc
        injection hcc with _ h2
        exact hab h2
      rw [hbe, hne]
      rfl
  have hgtrue : gpMatches (some a) (some ('#' :: a)) = true := by
    rw [gpMatches]
    have hae : a.isEmpty = false := by
      cases a with
      | nil => exact absurd rfl ha
      | cons x xs => rfl
    rw [hae, beq_self_eq_true]
    rfl
  have hscan1 : metaScan [belongsMeta na a, belongsMeta nb b,
      gpMeta ('#' :: a) pos] = (some nb, none, some b) := by
    rw [show metaScan [belongsMeta na a, belongsMeta nb b, gpMeta ('#' :: a) pos]
      = metaStep (metaStep (metaStep (none, none, none) (belongsMeta na a))
        (belongsMeta nb b)) (gpMeta ('#' :: a) pos) from rfl]
    rw [metaStep_belongs, metaStep_belongs, metaStep_gp]
    rw [show ((some nb, (none : Option Str), some b) :
      Option Str × Option Str × Option Str).2.2 = some b from rfl]
    rw [hgfalse]
    rfl
  have hscan2 : metaScan [belongsMeta nb b, belongsMeta na a,
      gpMeta ('#' :: a) pos] = (some na, some pos, some a) := by
    rw [show metaScan [belongsMeta nb b, belongsMeta na a, gpMeta ('#' :: a) pos]
      = metaStep (metaStep (metaStep (none, none, none) (belongsMeta nb b))
        (belongsMeta na a)) (gpMeta ('#' :: a) pos) from rfl]
    rw [metaStep_belongs, metaStep_belongs, metaStep_gp]
    rw [show ((some na, (none : Option Str), some a) :
      Option Str × Option Str × Option Str).2.2 = some a from rfl]
    rw [hgtrue]
    rfl
  have hname : ∀ ms, (mkEntry base (plainEntry ms)).seriesName =
      (metaScan ms).1 := by
    intro ms
    rw [show (mkEntry base (plainEntry ms)).seriesName =
      (seriesResolve (plainEntry ms)).1 from rfl, seriesResolve_plain]
  have hidx : ∀ ms, (mkEntry base (plainEntry ms)).seriesIndex =
      (metaScan ms).2.1 := by
    intro ms
    rw [show (mkEntry base (plainEntry ms)).seriesIndex =
      (seriesResolve (plainEntry ms)).2 from rfl, seriesResolve_plain]
  refine ⟨?_, ?_, ?_, ?_⟩
  · rw [hname, hscan1]
  · rw [hidx, hscan1]
  · rw [hname, hscan2]
  · rw [hidx, hscan2]

theorem seriesIndex_refines_guard_witness :
    (mkEntry [] (plainEntry [belongsMeta "A".data "a".data,
        belongsMeta "B".data "b".data, gpMeta "#a".data "1".data])).seriesName =
      some "B".data ∧
    (mkEntry [] (plainEntry [belongsMeta "A".data "a".data,
        belongsMeta "B".data "b".data, gpMeta "#a".data "1".data])).seriesIndex =
      none := by
  have h := seriesIndex_refines_guard "A".data "B".data "a".data "b".data
    "1".data [] (by decide) (by decide)
  exact ⟨h.1, h.2.1⟩

/-! ### Claim C7: link absolutization -/

/-- Claim C7: classification of link hrefs in `parseFeed` — a root-relative
href whose relation contains `image` or `thumbnail` becomes the image-proxy
form carrying the original path; an href starting with `http` passes
through unchanged; any other nonempty href is resolved against the base URL
by relative-URL resolution; a missing relation yields the empty-string
relation.  Concretely: base `https://x.test/catalog/` with `cover.jpg`
gives `https://x.test/catalog/cover.jpg`; `/covers/1.jpg` under a thumbnail
relation gives the proxy form embedding `/covers/1.jpg`; and
`http://y.test/book` is unchanged. -/
theorem parseFeed_link_absolutize :
    (∀ base h rel t, isPre "/".data h = true →
      (containsSub "image".data (rel.getD []) ||
        containsSub "thumbnail".data (rel.getD [])) = true →
      mkLink base ⟨some h, rel, t⟩ =
        ⟨"/api/opds/image-proxy?url=".data ++ h, rel.getD [], t⟩) ∧
    (∀ base h rel t, isPre "http".data h = true →
      mkLink base ⟨some h, rel, t⟩ = ⟨h, rel.getD [], t⟩) ∧
    (∀ base h rel t, ¬ h = [] → isPre "http".data h = false →
      (isPre "/".data h &&
        (containsSub "image".data (rel.getD []) ||
         containsSub "thumbnail".data (rel.getD []))) = false →
      mkLink base ⟨some h, rel, t⟩ = ⟨urljoin base h, rel.getD [], t⟩) ∧
    (∀ base h t, (mkLink base ⟨h, none, t⟩).rel = []) ∧
    mkLink "https://x.test/catalog/".data ⟨some "cover.jpg".data, none, none⟩ =
      ⟨"https://x.test/catalog/cover.jpg".data, [], none⟩ ∧
    mkLink "https://x.test/catalog/".data
      ⟨some "/covers/1.jpg".data,
        some "http://opds-spec.org/image/thumbnail".data, none⟩ =
      ⟨"/api/opds/image-proxy?url=/covers/1.jpg".data,
        "http://opds-spec.org/image/thumbnail".data, none⟩ ∧
    mkLink "https://x.test/catalog/".data
      ⟨some "http://y.test/book".data, none, none⟩ =
      ⟨"http://y.test/book".data, [], none⟩ := by
  refine ⟨?_, ?_, ?_, ?_, by decide, by decide, by decide⟩
  · intro base h rel t h1 h2
    cases h with
    | nil => exact absurd h1 (by decide)
    | cons c cs =>
      have hemp : (c :: cs).isEmpty = false := rfl
      simp only [mkLink, hemp, Bool.false_eq_true, if_false, h1, h2,
        Bool.and_self, if_true, Bool.true_and]
  · intro base h rel t h1
    cases h with
    | nil => exact absurd h1 (by decide)
    | cons c cs =>
      have hc : c = 'h' := by
        rw [isPre, Bool.and_eq_true] at h1
        exact (eq_of_beq h1.1).symm
      subst hc
      have hfirst : isPre "/".data ('h' :: cs) = false := by
        rw [isPre, show ('/' == 'h') = false from rfl, Bool.false_and]
      have hemp : ('h' :: cs).isEmpty = false := rfl
      simp only [mkLink, hemp, Bool.false_eq_true, if_false, hfirst,
        Bool.false_and, h1, if_true]
  · intro base h rel t hne hhttp hcond
    have hemp : h.isEmpty = false := by
      cases h with
      | nil => exact absurd rfl hne
      | cons x xs => rfl
    simp only [mkLink, hemp, Bool.false_eq_true, if_false, hcond, hhttp]
  · intro base h t
    rfl

theorem parseFeed_link_absolutize_witness :
    mkLink "https://x.test/catalog/".data
      ⟨some "/c.png".data, some "image".data, none⟩ =
      ⟨"/api/opds/image-proxy?url=/c.png".data, "image".data, none⟩ :=
  parseFeed_link_absolutize.1 "https://x.test/catalog/".data "/c.png".data
    (some "image".data) none (by decide) (by decide)

/-! ### The series extractor (`get_author_books`, app.py lines 743-849)

The HTML tree walk (BeautifulSoup `find_all(['h2','h3','h4','ul','ol','p',
'table'])` over the resolved content container, app.py line 743) is the
external collaborator: the model receives the flattened element sequence in
document order, each element carrying its stripped text and, where the code
reads one, its first link's href. -/

inductive BElem where
  | hd (text : Str)
  | ul (items : List (Str × Option Str))
  | par (text : Str) (firstLink : Option Str)
  | tbl (rows : List (List (Str × Option Str)))
deriving DecidableEq

structure SBook where
  title : Str
  amazonLink : Str
deriving DecidableEq

structure SGroup where
  name : Str
  books : List SBook
deriving DecidableEq

def lowerStr (s : Str) : Str := s.map Char.toLower

/-- The non-series heading denylist of app.py lines 749-753. -/
def skipHeaders : List Str :=
  ["about the author".data, "author bio".data, "biography".data,
   "share this".data, "related".data, "tags".data, "leave a reply".data,
   "responses to".data, "comments".data, "chronological order".data,
   "similar authors".data, "also read".data, "recommended".data,
   "you may also like".data]

def hdSkip (t : Str) : Bool :=
  skipHeaders.any (fun sk => containsSub sk (lowerStr t))

/-- The comment/form keyword denylist for list items, app.py line 826. -/
def liKeywords : List Str :=
  ["name".data, "email".data, "comment".data, "ago".data,
   "months ago".data, "year ago".data, "weeks ago".data]

def liKwSkip (t : Str) : Bool :=
  liKeywords.any (fun k => containsSub k (lowerStr t))

/-- `re.search(r'[\d\(\)]', text)` (app.py line 831): the text contains a
digit or a parenthesis (ASCII digits, as in these pages). -/
def hasDigitParen (t : Str) : Bool :=
  t.any (fun c => c.isDigit || c == '(' || c == ')')

/-- Links to `amazon.com`/`amzn.to` supply the purchase link, else empty
(app.py lines 807-812, 834-840). -/
def amazonLinkOf : Option Str → Str
  | some h =>
    if containsSub "amazon.com".data h || containsSub "amzn.to".data h then h
    else []
  | none => []

/-- List-item harvesting (app.py lines 820-846): skip comment-keyword
items; skip items shorter than 10 characters or with neither digit nor
parenthesis; append the rest with their purchase link. -/
def liHarvest (items : List (Str × Option Str)) : List SBook :=
  items.filterMap (fun it =>
    if liKwSkip it.1 then none
    else if it.1.length < 10 || !hasDigitParen it.1 then none
    else if it.1.isEmpty then none
    else some ⟨it.1, amazonLinkOf it.2⟩)

/-- The table-row header keywords of app.py line 783. -/
def tblHeaderWords : List Str :=
  ["title".data, "book".data, "year".data, "date".data]

/-- The cell scan of app.py lines 774-781: the first cell whose link
targets a retailer domain supplies the purchase link; cells with other
links are passed over. -/
def rowAmazon : List (Str × Option Str) → Str
  | [] => []
  | c :: rest =>
    match c.2 with
    | some h =>
      if containsSub "amazon.com".data h || containsSub "amzn.to".data h then h
      else rowAmazon rest
    | none => rowAmazon rest

/-- Table harvesting (app.py lines 765-787): the first cell's text is the
title unless empty or a header-row keyword. -/
def tblHarvest (rows : List (List (Str × Option Str))) : List SBook :=
  rows.filterMap (fun cells =>
    match cells with
    | [] => none
    | c0 :: _ =>
      if !c0.1.isEmpty && !(tblHeaderWords.contains (lowerStr c0.1)) then
        some ⟨c0.1, rowAmazon cells⟩
      else none)

/-- `\d+:` pair positions: the number of indices where a digit is
immediately followed by `:`. -/
def countDC : Str → Nat
  | [] => 0
  | [_] => 0
  | a :: b :: rest => (if a.isDigit && b == ':' then 1 else 0) + countDC (b :: rest)

def splitNlAux : Str → Str → List Str
  | cur, [] => [cur.reverse]
  | cur, c :: cs =>
    if c = '\n' then cur.reverse :: splitNlAux [] cs else splitNlAux (c :: cur) cs

def splitNl (s : Str) : List Str := splitNlAux [] s

/-- `re.search(r'\d+:.*\d+:.*\d+:', text)` (app.py line 799).  `.` does not
match a newline and `\d`/`:` never do, so the regex matches iff some
newline-free line contains three ordered disjoint `\d+:` substrings; each
such substring ends in a digit-colon pair, two distinct digit-colon pairs
can never overlap, so the condition is: some line has at least three
digit-colon pairs. -/
def multiNumbered (t : Str) : Bool :=
  (splitNl t).any (fun ln => 3 ≤ countDC ln)

/-- The reading-order phrase denylist of app.py line 803. -/
def parPhrases : List Str :=
  ["then read".data, "read in".data, "in order".data, "order to read".data]

/-- Paragraph harvesting (app.py lines 789-818): skip texts over 200
characters, concatenated numbered lists, and reading-order boilerplate;
accept the rest only when nonempty and containing a `(`. -/
def parHarvest (t : Str) (link : Option Str) : Option SBook :=
  if 200 < t.length then none
  else if multiNumbered t then none
  else if parPhrases.any (fun p => containsSub p (lowerStr t)) then none
  else if !t.isEmpty && t.contains '(' then some ⟨t, amazonLinkOf link⟩
  else none

/-- One step of the ordered scan of app.py lines 741-846 over the state
(groups already appended to the result, the currently open group).  A
heading on the denylist closes the current group and clears the pointer; a
nonempty heading opens a new group; an empty heading changes nothing; book
elements append to the open group, if any. -/
def scanStep (st : List SGroup × Option SGroup) (el : BElem) :
    List SGroup × Option SGroup :=
  match el with
  | .hd t =>
    if hdSkip t then (st.1 ++ st.2.toList, none)
    else if !t.isEmpty then (st.1 ++ st.2.toList, some ⟨t, []⟩)
    else st
  | .ul items =>
    match st.2 with
    | some g => (st.1, some ⟨g.name, g.books ++ liHarvest items⟩)
    | none => st
  | .par t lnk =>
    match st.2 with
    | some g => (st.1, some ⟨g.name, g.books ++ (parHarvest t lnk).toList⟩)
    | none => st
  | .tbl rows =>
    match st.2 with
    | some g => (st.1, some ⟨g.name, g.books ++ tblHarvest rows⟩)
    | none => st

/-- The series grouping of `get_author_books` (app.py lines 741-849):
ordered scan, then removal of groups left with zero books (line 849). -/
def getSeries (elems : List BElem) : List SGroup :=
  ((elems.foldl scanStep ([], none)).1 ++
    (elems.foldl scanStep ([], none)).2.toList).filter
    (fun g => !g.books.isEmpty)

/-! ### Claim C8: returned groups are never empty -/

/-- Claim C8: every group in the returned sequence has at least one book;
zero-book groups (for instance one opened by a heading immediately followed
by another heading) are dropped before the result is returned. -/
theorem getSeries_books_nonempty (elems : List BElem) (g : SGroup)
    (hg : g ∈ getSeries elems) : g.books ≠ [] := by
  rw [getSeries] at hg
  have h2 := (List.mem_filter.mp hg).2
  intro hnil
  rw [hnil] at h2
  simp at h2

theorem getSeries_books_nonempty_witness :
    (⟨"B".data, [⟨"Book A (2001)".data, []⟩]⟩ : SGroup).books ≠ [] :=
  getSeries_books_nonempty
    [.hd "A".data, .hd "B".data, .ul [("Book A (2001)".data, none)]]
    ⟨"B".data, [⟨"Book A (2001)".data, []⟩]⟩ (by decide)

/-! ### Claim C6: the list-item acceptance test -/

/-- Claim C6, counterexample: the length/digit-or-parenthesis test is not
the whole acceptance condition.  `Dragon Wing (1990)` is 18 characters long
and contains digits and parentheses, yet it is rejected, because the code
first discards any item whose lower-cased text contains one of the
comment/form keywords and `dragon` contains `ago`. -/
theorem liFilter_keyword_cx :
    getSeries [.hd "Series One".data,
      .ul [("Dragon Wing (1990)".data, none)]] = [] ∧
    10 ≤ "Dragon Wing (1990)".data.length ∧
    hasDigitParen "Dragon Wing (1990)".data = true := by
  refine ⟨by decide, by decide, by decide⟩

/-- Claim C6 (amended): under an open series, a list item is accepted as a
book iff its lower-cased text contains none of the comment/form keywords
{name, email, comment, ago, months ago, year ago, weeks ago}, AND it is at
least 10 characters long, AND it contains a digit or a parenthesis.  In
particular the document `h3 "Series One"; ul ["Book A (2001)", "x"]` yields
exactly one series with the single book `Book A (2001)`, the item `x` being
rejected by the length test. -/
theorem getSeries_li_filter :
    (∀ t : Str, getSeries [.hd "Series One".data, .ul [(t, none)]] =
      if !liKwSkip t && decide (10 ≤ t.length) && hasDigitParen t
      then [⟨"Series One".data, [⟨t, []⟩]⟩] else []) ∧
    getSeries [.hd "Series One".data,
      .ul [("Book A (2001)".data, none), ("x".data, none)]] =
      [⟨"Series One".data, [⟨"Book A (2001)".data, []⟩]⟩] := by
  constructor
  · intro t
    have hred : getSeries [.hd "Series One".data, .ul [(t, none)]] =
        List.filter (fun g => !g.books.isEmpty)
          [⟨"Series One".data, liHarvest [(t, none)]⟩] := rfl
    have hli : liHarvest [(t, none)] =
        if !liKwSkip t && decide (10 ≤ t.length) && hasDigitParen t
        then [⟨t, []⟩] else [] := by
      cases hkw : liKwSkip t with
      | true => simp [liHarvest, hkw]
      | false =>
        cases hdp : hasDigitParen t with
        | false => simp [liHarvest, hkw, hdp]
        | true =>
          by_cases hlen : t.length < 10
          · have hd10 : decide (10 ≤ t.length) = false :=
              decide_eq_false (by omega)
            simp [liHarvest, hkw, hdp, hd10, hlen]
          · have hd10 : decide (10 ≤ t.length) = true :=
              decide_eq_true (by omega)
            have hne : ¬ t = [] := by
              intro h0
              rw [h0] at hlen
              exact hlen (by decide)
            simp [liHarvest, hkw, hdp, hd10, hlen, hne, amazonLinkOf]
    rw [hred, hli]
    by_cases hb : (!liKwSkip t && decide (10 ≤ t.length) && hasDigitParen t) = true
    · rw [if_pos hb, if_pos hb]
      rfl
    · rw [if_neg hb, if_neg hb]
      rfl
  · decide
